import Mathlib

/-!
Verification of the rANS entropy coder from `ans-coder/src/lib.rs`.

The coder is a stack-like state machine with a 64-bit register `state` and an
overflow buffer `buf` of 32-bit words.  Machine integers are embedded as `Nat`
with explicit `% 2 ^ 64` (resp. `% 2 ^ 32`) at the points where the Rust code
performs a wrapping 64-bit operation or a cast to `u32`.  The `distributions`
module of the crate is declared in `lib.rs` but its source file is not part of
the repository snapshot; where one of its members decides a claim it is
modelled from the spec (see the doc comments marked "Modelled from the spec").
-/

def FREQUENCY_BITS : Nat := 24

/-- The discrete-distribution capability the coder is generic over:
`left_cumulative_and_probability : symbol → (c, p)` and
`quantile_function : quantile → (symbol, c, p)`.  The trait lives in the
crate's `distributions` module; the shape used here is exactly the one the
call sites in `lib.rs` rely on (both operations are total and return plain
tuples of machine integers). -/
structure DiscreteDistribution (S : Type) where
  left_cumulative_and_probability : S → Nat × Nat
  quantile_function : Nat → S × Nat × Nat

structure AnsCoder where
  buf : List Nat
  state : Nat
deriving DecidableEq

namespace AnsCoder

def new : AnsCoder := ⟨[], 1 <<< 32⟩

/-- The body of `push_symbol` from `lib.rs` once `(c, p) =
left_cumulative_and_probability(symbol)` has been obtained.  The
renormalization guard compares `state` with
`(p as u64) << (64 - FREQUENCY_BITS)`, a wrapping 64-bit shift, embedded as
`(p <<< 40) % 2 ^ 64`; the spilled word is `state as u32 = state % 2 ^ 32`;
the final register write is a 64-bit store. -/
def push_with (coder : AnsCoder) (cp : Nat × Nat) : AnsCoder :=
  let c := cp.1
  let p := cp.2
  let buf1 := if (p <<< (64 - FREQUENCY_BITS)) % 2 ^ 64 ≤ coder.state
              then coder.buf ++ [coder.state % 2 ^ 32] else coder.buf
  let st1 := if (p <<< (64 - FREQUENCY_BITS)) % 2 ^ 64 ≤ coder.state
             then coder.state >>> 32 else coder.state
  let pfx := st1 / p
  let sfx := st1 % p + c
  ⟨buf1, ((pfx <<< FREQUENCY_BITS) ||| sfx) % 2 ^ 64⟩

/-- Function `push_symbol` from `lib.rs`. -/
def push_symbol {S : Type} (coder : AnsCoder) (symbol : S)
    (d : DiscreteDistribution S) : AnsCoder :=
  coder.push_with (d.left_cumulative_and_probability symbol)

/-- Function `pop_symbol` from `lib.rs`.  The `u32` subtraction
`suffix - left_sided_cumulative` never underflows when the distribution meets
the interface contract (cf. the C7 theorem); it is embedded as truncated `Nat`
subtraction.  `buf.pop()` takes the last element of the vector; an empty
buffer yields `Err(())`. -/
def pop_symbol {S : Type} (coder : AnsCoder)
    (d : DiscreteDistribution S) : Except Unit (S × AnsCoder) :=
  let pfx := coder.state >>> FREQUENCY_BITS
  let sfx := coder.state % 2 ^ FREQUENCY_BITS
  let scp := d.quantile_function sfx
  let st1 := (scp.2.2 * pfx + (sfx - scp.2.1)) % 2 ^ 64
  if st1 < 2 ^ 32 then
    match coder.buf.getLast? with
    | none => Except.error ()
    | some w => Except.ok (scp.1, ⟨coder.buf.dropLast, (st1 <<< 32) ||| w⟩)
  else
    Except.ok (scp.1, ⟨coder.buf, st1⟩)

/-- Function `finish_encoding` from `lib.rs`: push `state as u32`, then
`(state >> 32) as u32`, and return the buffer. -/
def finish_encoding (coder : AnsCoder) : List Nat :=
  (coder.buf.concat (coder.state % 2 ^ 32)).concat ((coder.state >>> 32) % 2 ^ 32)

/-- Function `finish_decoding` from `lib.rs`. -/
def finish_decoding (coder : AnsCoder) : Except Unit Unit :=
  if coder.buf = [] ∧ coder.state = 1 <<< 32 then Except.ok () else Except.error ()

/-- Function `num_bits` from `lib.rs`. -/
def num_bits (coder : AnsCoder) : Nat :=
  32 * coder.buf.length + 64

/-- Pushing a list of symbol/distribution pairs in list order. -/
def push_symbols {S : Type} (coder : AnsCoder)
    (L : List (S × DiscreteDistribution S)) : AnsCoder :=
  L.foldl (fun X sd => X.push_symbol sd.1 sd.2) coder

/-- Popping once per distribution in list order, collecting the symbols. -/
def pop_symbols {S : Type} (coder : AnsCoder)
    (ds : List (DiscreteDistribution S)) : Except Unit (List S × AnsCoder) :=
  match ds with
  | [] => Except.ok ([], coder)
  | d :: rest =>
    match coder.pop_symbol d with
    | Except.error e => Except.error e
    | Except.ok (s, X') =>
      match X'.pop_symbols rest with
      | Except.error e => Except.error e
      | Except.ok (ss, X'') => Except.ok (s :: ss, X'')

end AnsCoder

instance {ε α : Type} [DecidableEq ε] [DecidableEq α] : DecidableEq (Except ε α) :=
  fun x y =>
    match x, y with
    | Except.error a, Except.error b => decidable_of_iff (a = b) (by simp)
    | Except.error _, Except.ok _ => isFalse (fun h => Except.noConfusion h)
    | Except.ok _, Except.error _ => isFalse (fun h => Except.noConfusion h)
    | Except.ok a, Except.ok b => decidable_of_iff (a = b) (by simp)

/-- The distribution conditions the round-trip claims assume at a pushed
symbol `s`: `p ≥ 1`, the symbol's interval lies inside `[0, 2 ^ 24)`, and the
inverse lookup is consistent with the forward lookup on that interval (the
interface contract of spec §4.1 restricted to `s`). -/
def ValidPair {S : Type} (d : DiscreteDistribution S) (s : S) : Prop :=
  1 ≤ (d.left_cumulative_and_probability s).2 ∧
  (d.left_cumulative_and_probability s).1 + (d.left_cumulative_and_probability s).2
      ≤ 2 ^ FREQUENCY_BITS ∧
  ∀ q : Nat, (d.left_cumulative_and_probability s).1 ≤ q →
    q < (d.left_cumulative_and_probability s).1 +
        (d.left_cumulative_and_probability s).2 →
    d.quantile_function q = (s, d.left_cumulative_and_probability s)

/-- `ValidPair` strengthened by `p < 2 ^ 24`: the probability does not take
the extreme value `2 ^ 24` that the interface contract allows. -/
def StrictPair {S : Type} (d : DiscreteDistribution S) (s : S) : Prop :=
  ValidPair d s ∧ (d.left_cumulative_and_probability s).2 < 2 ^ FREQUENCY_BITS

/-- The decode-side interface contract: for every quantile `q < 2 ^ 24` the
inverse lookup returns `(s, c, p)` with `p ≥ 1` and `c ≤ q < c + p ≤ 2 ^ 24`,
consistently with the forward lookup. -/
def QuantileOK {S : Type} (d : DiscreteDistribution S) : Prop :=
  ∀ q : Nat, q < 2 ^ FREQUENCY_BITS →
    1 ≤ (d.quantile_function q).2.2 ∧
    (d.quantile_function q).2.1 ≤ q ∧
    q < (d.quantile_function q).2.1 + (d.quantile_function q).2.2 ∧
    (d.quantile_function q).2.1 + (d.quantile_function q).2.2 ≤ 2 ^ FREQUENCY_BITS ∧
    d.left_cumulative_and_probability (d.quantile_function q).1 =
      ((d.quantile_function q).2.1, (d.quantile_function q).2.2)

section ConcreteDistributions

/-- A single-symbol distribution giving its only symbol the full mass
`2 ^ 24`; it satisfies the interface contract. -/
def dFull : DiscreteDistribution ℤ :=
  ⟨fun _ => (0, 2 ^ 24), fun _ => (0, 0, 2 ^ 24)⟩

/-- A three-symbol distribution: symbol `2` owns `[0, 100)`, symbol `1` owns
`[100, 116)`, symbol `3` owns `[116, 2 ^ 24)`. -/
def dB : DiscreteDistribution ℤ :=
  ⟨fun s => if s = 2 then (0, 100) else if s = 1 then (100, 16) else (116, 2 ^ 24 - 116),
   fun q => if q < 100 then (2, 0, 100)
            else if q < 116 then (1, 100, 16)
            else (3, 116, 2 ^ 24 - 116)⟩

/-- A two-symbol distribution: symbol `4` owns `[0, 2 ^ 23)`, symbol `5` owns
`[2 ^ 23, 2 ^ 24)`. -/
def dE : DiscreteDistribution ℤ :=
  ⟨fun s => if s = 4 then (0, 2 ^ 23) else (2 ^ 23, 2 ^ 23),
   fun q => if q < 2 ^ 23 then (4, 0, 2 ^ 23) else (5, 2 ^ 23, 2 ^ 23)⟩

/-- A distribution whose symbol `0` owns the single point `[0, 1)`; symbol
`1` owns the rest of the mass. -/
def dUnit : DiscreteDistribution ℤ :=
  ⟨fun s => if s = 0 then (0, 1) else (1, 2 ^ 24 - 1),
   fun q => if q = 0 then (0, 0, 1) else (1, 1, 2 ^ 24 - 1)⟩

/-- A distribution whose symbol `0` owns `[0, 2 ^ 16)`; symbol `1` owns the
rest of the mass. -/
def dWide : DiscreteDistribution ℤ :=
  ⟨fun s => if s = 0 then (0, 2 ^ 16) else (2 ^ 16, 2 ^ 24 - 2 ^ 16),
   fun q => if q < 2 ^ 16 then (0, 0, 2 ^ 16) else (1, 2 ^ 16, 2 ^ 24 - 2 ^ 16)⟩

end ConcreteDistributions

section Arithmetic

lemma shiftLeft_or_eq_add (a b k : Nat) (h : b < 2 ^ k) :
    (a <<< k) ||| b = a * 2 ^ k + b := by
  rw [Nat.shiftLeft_eq, Nat.mul_comm a]
  exact (Nat.mul_add_lt_is_or h a).symm

end Arithmetic

section PushPopCharacterization

/-- When the renormalization guard fires (`p * 2 ^ 40 ≤ state`, the exact
comparison, valid for `p < 2 ^ 24`), `push_with (c, p)` spills the low 32
bits of the register and updates the remaining high part. -/
lemma push_with_spill (X : AnsCoder) (c p : Nat) (hp : 1 ≤ p)
    (hplt : p < 2 ^ 24) (hcp : c + p ≤ 2 ^ 24) (hhi : X.state < 2 ^ 64)
    (hG : p * 2 ^ 40 ≤ X.state) :
    X.push_with (c, p) =
      ⟨X.buf ++ [X.state % 2 ^ 32],
       (X.state / 2 ^ 32 / p) * 2 ^ 24 + (X.state / 2 ^ 32 % p + c)⟩ := by
  have hG' : (p <<< (64 - FREQUENCY_BITS)) % 2 ^ 64 ≤ X.state := by
    rw [show (64 - FREQUENCY_BITS) = 40 from rfl, Nat.shiftLeft_eq,
        Nat.mod_eq_of_lt (by omega)]
    exact hG
  have hmod : X.state / 2 ^ 32 % p < p := Nat.mod_lt _ (by omega)
  have hsfx : X.state / 2 ^ 32 % p + c < 2 ^ 24 := by omega
  have hdiv : X.state / 2 ^ 32 / p ≤ X.state / 2 ^ 32 := Nat.div_le_self _ _
  simp only [AnsCoder.push_with, if_pos hG', Nat.shiftRight_eq_div_pow]
  congr 1
  rw [show FREQUENCY_BITS = 24 from rfl, shiftLeft_or_eq_add _ _ _ hsfx]
  exact Nat.mod_eq_of_lt (by omega)

/-- When the guard does not fire (`state < p * 2 ^ 40`), `push_with (c, p)`
leaves the buffer alone and updates the register in place. -/
lemma push_with_nospill (X : AnsCoder) (c p : Nat) (hp : 1 ≤ p)
    (hplt : p < 2 ^ 24) (hcp : c + p ≤ 2 ^ 24) (hG : X.state < p * 2 ^ 40) :
    X.push_with (c, p) =
      ⟨X.buf, (X.state / p) * 2 ^ 24 + (X.state % p + c)⟩ := by
  have hG' : ¬ (p <<< (64 - FREQUENCY_BITS)) % 2 ^ 64 ≤ X.state := by
    rw [show (64 - FREQUENCY_BITS) = 40 from rfl, Nat.shiftLeft_eq,
        Nat.mod_eq_of_lt (by omega)]
    omega
  have hmod : X.state % p < p := Nat.mod_lt _ (by omega)
  have hsfx : X.state % p + c < 2 ^ 24 := by omega
  have hdiv : X.state / p < 2 ^ 40 :=
    (Nat.div_lt_iff_lt_mul (by omega)).mpr (by omega)
  simp only [AnsCoder.push_with, if_neg hG']
  congr 1
  rw [show FREQUENCY_BITS = 24 from rfl, shiftLeft_or_eq_add _ _ _ hsfx]
  exact Nat.mod_eq_of_lt (by omega)

/-- Pushing with `p < 2 ^ 24` from a normalized register keeps the register
normalized. -/
lemma push_with_bounds (X : AnsCoder) (c p : Nat) (hp : 1 ≤ p)
    (hplt : p < 2 ^ 24) (hcp : c + p ≤ 2 ^ 24)
    (hlo : 2 ^ 32 ≤ X.state) (hhi : X.state < 2 ^ 64) :
    2 ^ 32 ≤ (X.push_with (c, p)).state ∧ (X.push_with (c, p)).state < 2 ^ 64 := by
  rcases le_or_lt (p * 2 ^ 40) X.state with hG | hG
  · rw [push_with_spill X c p hp hplt hcp hhi hG]
    have h1 : 2 ^ 8 ≤ X.state / 2 ^ 32 / p := by
      rw [Nat.le_div_iff_mul_le (show 0 < p by omega)]
      omega
    have h2 : X.state / 2 ^ 32 / p ≤ X.state / 2 ^ 32 := Nat.div_le_self _ _
    have h3 : X.state / 2 ^ 32 % p < p := Nat.mod_lt _ (by omega)
    simp only
    omega
  · rw [push_with_nospill X c p hp hplt hcp hG]
    have h1 : 2 ^ 8 ≤ X.state / p := by
      rw [Nat.le_div_iff_mul_le (show 0 < p by omega)]
      omega
    have h2 : X.state / p < 2 ^ 40 :=
      (Nat.div_lt_iff_lt_mul (by omega)).mpr (by omega)
    have h3 : X.state % p < p := Nat.mod_lt _ (by omega)
    simp only
    omega

end PushPopCharacterization

/-- Popping immediately after pushing a strict valid pair returns the pushed
symbol and restores the coder exactly, provided the register was normalized
before the push. -/
lemma pop_push {S : Type} (d : DiscreteDistribution S) (s : S) (X : AnsCoder)
    (c p : Nat) (hd : d.left_cumulative_and_probability s = (c, p))
    (hp : 1 ≤ p) (hplt : p < 2 ^ 24) (hcp : c + p ≤ 2 ^ 24)
    (hq : ∀ q : Nat, c ≤ q → q < c + p → d.quantile_function q = (s, c, p))
    (hlo : 2 ^ 32 ≤ X.state) (hhi : X.state < 2 ^ 64) :
    (X.push_symbol s d).pop_symbol d = Except.ok (s, X) := by
  rw [AnsCoder.push_symbol, hd]
  rcases le_or_lt (p * 2 ^ 40) X.state with hG | hG
  · rw [push_with_spill X c p hp hplt hcp hhi hG]
    have hmod : X.state / 2 ^ 32 % p < p := Nat.mod_lt _ (by omega)
    set a := X.state / 2 ^ 32 / p with ha
    set r := X.state / 2 ^ 32 % p + c with hr
    have hrlt : r < 2 ^ 24 := by omega
    have hsfx : (a * 2 ^ 24 + r) % 2 ^ FREQUENCY_BITS = r := by
      show (a * 2 ^ 24 + r) % 2 ^ 24 = r
      omega
    have hpfx : (a * 2 ^ 24 + r) >>> FREQUENCY_BITS = a := by
      rw [Nat.shiftRight_eq_div_pow]
      show (a * 2 ^ 24 + r) / 2 ^ 24 = a
      omega
    have hquant : d.quantile_function r = (s, c, p) := hq r (by omega) (by omega)
    have hst1 : p * a + (r - c) = X.state / 2 ^ 32 := by
      have h2 : r - c = X.state / 2 ^ 32 % p := by omega
      rw [h2, ha]
      exact Nat.div_add_mod _ p
    have hsm_lt : X.state / 2 ^ 32 < 2 ^ 32 := by omega
    have hw_lt : X.state % 2 ^ 32 < 2 ^ 32 := Nat.mod_lt _ (by omega)
    simp only [AnsCoder.pop_symbol, hsfx, hpfx, hquant, hst1,
      Nat.mod_eq_of_lt (show X.state / 2 ^ 32 < 2 ^ 64 by omega),
      if_pos hsm_lt, List.getLast?_concat, List.dropLast_concat]
    rw [shiftLeft_or_eq_add _ _ _ hw_lt]
    rw [show X.state / 2 ^ 32 * 2 ^ 32 + X.state % 2 ^ 32 = X.state by omega]
  · rw [push_with_nospill X c p hp hplt hcp hG]
    have hmod : X.state % p < p := Nat.mod_lt _ (by omega)
    set a := X.state / p with ha
    set r := X.state % p + c with hr
    have hrlt : r < 2 ^ 24 := by omega
    have hsfx : (a * 2 ^ 24 + r) % 2 ^ FREQUENCY_BITS = r := by
      show (a * 2 ^ 24 + r) % 2 ^ 24 = r
      omega
    have hpfx : (a * 2 ^ 24 + r) >>> FREQUENCY_BITS = a := by
      rw [Nat.shiftRight_eq_div_pow]
      show (a * 2 ^ 24 + r) / 2 ^ 24 = a
      omega
    have hquant : d.quantile_function r = (s, c, p) := hq r (by omega) (by omega)
    have hst1 : p * a + (r - c) = X.state := by
      have h2 : r - c = X.state % p := by omega
      rw [h2, ha]
      exact Nat.div_add_mod _ p
    simp only [AnsCoder.pop_symbol, hsfx, hpfx, hquant, hst1,
      Nat.mod_eq_of_lt hhi, if_neg (show ¬ X.state < 2 ^ 32 by omega)]


lemma pop_symbols_append {S : Type} (l1 l2 : List (DiscreteDistribution S)) :
    ∀ X : AnsCoder, X.pop_symbols (l1 ++ l2) =
      match X.pop_symbols l1 with
      | Except.error e => Except.error e
      | Except.ok (ss, X') =>
        match X'.pop_symbols l2 with
        | Except.error e => Except.error e
        | Except.ok (ss2, X'') => Except.ok (ss ++ ss2, X'') := by
  induction l1 with
  | nil =>
    intro X
    simp only [List.nil_append, AnsCoder.pop_symbols]
    cases X.pop_symbols l2 with
    | error e => rfl
    | ok v => rfl
  | cons d l1 ih =>
    intro X
    cases hps : X.pop_symbol d with
    | error e =>
      simp only [List.cons_append, AnsCoder.pop_symbols, hps]
    | ok v =>
      obtain ⟨s, X1⟩ := v
      have ih' := ih X1
      simp only [List.cons_append, AnsCoder.pop_symbols, hps]
      rw [List.append_eq, ih']
      cases X1.pop_symbols l1 with
      | error e => rfl
      | ok v1 =>
        obtain ⟨ss, X2⟩ := v1
        dsimp only
        cases X2.pop_symbols l2 with
        | error e => rfl
        | ok v2 => rfl

/-- Round trip from any normalized starting coder: pushing a list of strict
valid pairs and popping with the same distributions in reverse order yields
the symbols in reverse push order and restores the starting coder. -/
lemma roundtrip_general {S : Type} (L : List (S × DiscreteDistribution S)) :
    ∀ X : AnsCoder, (∀ sd ∈ L, StrictPair sd.2 sd.1) →
      2 ^ 32 ≤ X.state → X.state < 2 ^ 64 →
      (X.push_symbols L).pop_symbols (L.reverse.map Prod.snd) =
        Except.ok (L.reverse.map Prod.fst, X) := by
  induction L with
  | nil =>
    intro X _ _ _
    rfl
  | cons a L ih =>
    intro X hv hlo hhi
    obtain ⟨⟨hp, hcp, hq⟩, hplt⟩ := hv a (List.mem_cons_self a L)
    have hbounds := push_with_bounds X (a.2.left_cumulative_and_probability a.1).1
      (a.2.left_cumulative_and_probability a.1).2 hp hplt hcp hlo hhi
    have hpush_state : (X.push_symbol a.1 a.2) = X.push_with
        ((a.2.left_cumulative_and_probability a.1).1,
         (a.2.left_cumulative_and_probability a.1).2) := rfl
    have hstep : ((X.push_symbol a.1 a.2)).pop_symbol a.2 = Except.ok (a.1, X) :=
      pop_push a.2 a.1 X (a.2.left_cumulative_and_probability a.1).1
        (a.2.left_cumulative_and_probability a.1).2 (Prod.mk.eta).symm hp hplt hcp
        (fun q h1 h2 => by rw [hq q h1 h2, Prod.mk.eta]) hlo hhi
    have hpushed : AnsCoder.push_symbols X (a :: L) =
        AnsCoder.push_symbols (X.push_symbol a.1 a.2) L := by
      simp only [AnsCoder.push_symbols, List.foldl_cons]
    have hIH := ih (X.push_symbol a.1 a.2)
      (fun sd hsd => hv sd (List.mem_cons_of_mem _ hsd))
      (by rw [hpush_state]; exact hbounds.1)
      (by rw [hpush_state]; exact hbounds.2)
    have happ := pop_symbols_append (L.reverse.map Prod.snd) [a.2]
      (AnsCoder.push_symbols (X.push_symbol a.1 a.2) L)
    rw [hIH] at happ
    rw [hpushed]
    simp only [List.reverse_cons, List.map_append, List.map_cons, List.map_nil]
    rw [happ]
    dsimp only
    simp only [AnsCoder.pop_symbols, hstep]

/-- Words appended to the buffer by a push are low 32-bit words. -/
lemma push_with_words (X : AnsCoder) (cp : Nat × Nat) :
    ∀ w ∈ (X.push_with cp).buf, w ∈ X.buf ∨ w = X.state % 2 ^ 32 := by
  intro w hw
  simp only [AnsCoder.push_with] at hw
  by_cases hG : (cp.2 <<< (64 - FREQUENCY_BITS)) % 2 ^ 64 ≤ X.state
  · rw [if_pos hG] at hw
    rcases List.mem_append.mp hw with h | h
    · exact Or.inl h
    · exact Or.inr (List.mem_singleton.mp h)
  · rw [if_neg hG] at hw
    exact Or.inl hw

/-- A successful pop from a normalized coder with 32-bit buffer words under
the decode-side contract yields a normalized coder with 32-bit buffer
words. -/
lemma pop_preserves {S : Type} (d : DiscreteDistribution S) (X X' : AnsCoder)
    (s : S) (hq : QuantileOK d) (hlo : 2 ^ 32 ≤ X.state)
    (hhi : X.state < 2 ^ 64) (hw : ∀ w ∈ X.buf, w < 2 ^ 32)
    (hpop : X.pop_symbol d = Except.ok (s, X')) :
    2 ^ 32 ≤ X'.state ∧ X'.state < 2 ^ 64 ∧ ∀ w ∈ X'.buf, w < 2 ^ 32 := by
  rw [AnsCoder.pop_symbol] at hpop
  rw [show FREQUENCY_BITS = 24 from rfl] at hpop
  obtain ⟨h1, h2, h3, h4, -⟩ := hq (X.state % 2 ^ 24)
    (by rw [show FREQUENCY_BITS = 24 from rfl]; exact Nat.mod_lt _ (by norm_num))
  rw [show FREQUENCY_BITS = 24 from rfl] at h4
  set sfx := X.state % 2 ^ 24 with hsfx_def
  set c := (d.quantile_function sfx).2.1 with hc_def
  set p := (d.quantile_function sfx).2.2 with hp_def
  have hsfx24 : sfx < 2 ^ 24 := by omega
  have hp24 : p ≤ 2 ^ 24 := by omega
  have hpfx_eq : X.state >>> 24 = X.state / 2 ^ 24 :=
    Nat.shiftRight_eq_div_pow _ _
  have hpfx_lt : X.state / 2 ^ 24 < 2 ^ 40 := by omega
  have hpfx_ge : 2 ^ 8 ≤ X.state / 2 ^ 24 := by omega
  have hv_lt : p * (X.state / 2 ^ 24) + (sfx - c) < 2 ^ 64 := by
    have hsc : sfx - c < p := by omega
    have hub : p * (X.state / 2 ^ 24) + (sfx - c) + 1 ≤ p * (X.state / 2 ^ 24 + 1) := by
      have h5 : p * (X.state / 2 ^ 24 + 1) = p * (X.state / 2 ^ 24) + p := by ring
      omega
    have hub2 : p * (X.state / 2 ^ 24 + 1) ≤ 2 ^ 24 * 2 ^ 40 :=
      Nat.mul_le_mul hp24 (by omega)
    omega
  have hv_ge : 2 ^ 8 ≤ p * (X.state / 2 ^ 24) + (sfx - c) := by
    have h5 : X.state / 2 ^ 24 ≤ p * (X.state / 2 ^ 24) :=
      Nat.le_mul_of_pos_left _ (by omega)
    omega
  rw [hpfx_eq, Nat.mod_eq_of_lt hv_lt] at hpop
  by_cases hb : p * (X.state / 2 ^ 24) + (sfx - c) < 2 ^ 32
  · rw [if_pos hb] at hpop
    rcases List.eq_nil_or_concat X.buf with hnil | ⟨B, w, hBw⟩
    · rw [hnil] at hpop
      exact absurd hpop (by simp)
    · rw [hBw, List.concat_eq_append, List.getLast?_concat,
        List.dropLast_concat] at hpop
      simp only [Except.ok.injEq, Prod.mk.injEq] at hpop
      obtain ⟨-, hX'⟩ := hpop
      have hwlt : w < 2 ^ 32 := hw w (by rw [hBw]; simp)
      rw [← hX']
      refine ⟨?_, ?_, ?_⟩
      · simp only
        rw [shiftLeft_or_eq_add _ _ _ hwlt]
        omega
      · simp only
        rw [shiftLeft_or_eq_add _ _ _ hwlt]
        omega
      · intro w' hw'
        exact hw w' (by rw [hBw]; simp only [List.concat_eq_append,
          List.mem_append]; exact Or.inl hw')
  · rw [if_neg hb] at hpop
    simp only [Except.ok.injEq, Prod.mk.injEq] at hpop
    obtain ⟨-, hX'⟩ := hpop
    rw [← hX']
    exact ⟨by simp only; omega, by simp only; omega, fun w' hw' => hw w' hw'⟩

/-- Coders reachable from a fresh coder by pushes of interface-contract
pairs and successful pops under the decode-side contract. -/
inductive ReachContract : AnsCoder → Prop where
  | init : ReachContract AnsCoder.new
  | push {S : Type} (d : DiscreteDistribution S) (s : S) {X : AnsCoder} :
      ValidPair d s → ReachContract X → ReachContract (X.push_symbol s d)
  | pop {S : Type} (d : DiscreteDistribution S) {X X' : AnsCoder} {s : S} :
      QuantileOK d → ReachContract X → X.pop_symbol d = Except.ok (s, X') →
      ReachContract X'

/-- Coders reachable from a fresh coder by pushes of strict valid pairs
(probability strictly below `2 ^ 24`) and successful pops under the
decode-side contract. -/
inductive ReachStrict : AnsCoder → Prop where
  | init : ReachStrict AnsCoder.new
  | push {S : Type} (d : DiscreteDistribution S) (s : S) {X : AnsCoder} :
      StrictPair d s → ReachStrict X → ReachStrict (X.push_symbol s d)
  | pop {S : Type} (d : DiscreteDistribution S) {X X' : AnsCoder} {s : S} :
      QuantileOK d → ReachStrict X → X.pop_symbol d = Except.ok (s, X') →
      ReachStrict X'

/-- The register of a strictly reachable coder is normalized, and its buffer
holds 32-bit words. -/
lemma reachStrict_invariant (X : AnsCoder) (h : ReachStrict X) :
    2 ^ 32 ≤ X.state ∧ X.state < 2 ^ 64 ∧ ∀ w ∈ X.buf, w < 2 ^ 32 := by
  induction h with
  | init =>
    refine ⟨by decide, by decide, ?_⟩
    intro w hw
    simp [AnsCoder.new] at hw
  | @push S0 d s X0 hs hre ihre =>
    obtain ⟨⟨hp, hcp, -⟩, hplt⟩ := hs
    obtain ⟨hlo, hhi, hws⟩ := ihre
    have hbounds := push_with_bounds _ _ _ hp hplt hcp hlo hhi
    have hpush : X0.push_symbol s d = X0.push_with
        ((d.left_cumulative_and_probability s).1,
         (d.left_cumulative_and_probability s).2) := rfl
    refine ⟨by rw [hpush]; exact hbounds.1, by rw [hpush]; exact hbounds.2, ?_⟩
    intro w hw
    rcases push_with_words X0 _ w (by rw [← hpush]; exact hw) with hmem | heq
    · exact hws w hmem
    · rw [heq]
      exact Nat.mod_lt _ (by norm_num)
  | pop d hq _ hpop ihre =>
    obtain ⟨hlo, hhi, hws⟩ := ihre
    exact pop_preserves d _ _ _ hq hlo hhi hws hpop

section LeakyQuantizer

/-- Modelled from the spec (§4.2): the LeakyQuantizer is part of the crate's
`distributions` module, whose source file is not part of the repository
snapshot.  The wrapped continuous distribution is abstracted by its
discretized CDF `g : ℤ → ℕ`, where `g z` stands for
`floor(cdf(z + 0.5) · free_mass)` with `free_mass = 2 ^ 24 - span`.
`leakyLo` is the spec's lower interval endpoint of a symbol. -/
def leakyLo (mn : ℤ) (g : ℤ → Nat) (s : ℤ) : Nat :=
  if s = mn then 0 else g (s - 1) + (s - mn).toNat

/-- Modelled from the spec (§4.2): upper interval endpoint of a symbol. -/
def leakyHi (mn mx : ℤ) (g : ℤ → Nat) (s : ℤ) : Nat :=
  if s = mx then 2 ^ FREQUENCY_BITS else g s + (s - mn).toNat + 1

/-- Modelled from the spec (§4.2): monotone search for the symbol whose
interval contains the quantile. -/
def leakyFind (mn mx : ℤ) (g : ℤ → Nat) (q : Nat) : Nat → ℤ → ℤ × Nat × Nat
  | 0, s => (s, leakyLo mn g s, leakyHi mn mx g s - leakyLo mn g s)
  | fuel + 1, s =>
    if q < leakyHi mn mx g s then
      (s, leakyLo mn g s, leakyHi mn mx g s - leakyLo mn g s)
    else leakyFind mn mx g q fuel (s + 1)

/-- Modelled from the spec (§4.2): the quantized discrete distribution over
the alphabet `[mn, mx]`. -/
def leakyQuantize (mn mx : ℤ) (g : ℤ → Nat) : DiscreteDistribution ℤ :=
  ⟨fun s => (leakyLo mn g s, leakyHi mn mx g s - leakyLo mn g s),
   fun q => leakyFind mn mx g q (mx - mn).toNat mn⟩

/-- The properties a discretized CDF inherits from a real CDF: monotone and
bounded by the free mass `2 ^ 24 - span`. -/
def CdfOK (mn mx : ℤ) (g : ℤ → Nat) : Prop :=
  (∀ a b : ℤ, a ≤ b → g a ≤ g b) ∧
  (∀ z : ℤ, g z ≤ 2 ^ FREQUENCY_BITS - ((mx - mn).toNat + 1))

lemma leakyHi_eq_lo_succ (mn mx : ℤ) (g : ℤ → Nat) (s : ℤ)
    (hs1 : mn ≤ s) (hs2 : s < mx) :
    leakyHi mn mx g s = leakyLo mn g (s + 1) := by
  rw [leakyHi, leakyLo, if_neg (by omega), if_neg (by omega),
    show s + 1 - 1 = s by ring]
  omega

lemma leakyLo_lt_hi (mn mx : ℤ) (g : ℤ → Nat) (hg : CdfOK mn mx g)
    (hspan : (mx - mn).toNat + 1 ≤ 2 ^ FREQUENCY_BITS) (s : ℤ)
    (h1 : mn ≤ s) (h2 : s ≤ mx) :
    leakyLo mn g s < leakyHi mn mx g s := by
  rw [show (2 : Nat) ^ FREQUENCY_BITS = 2 ^ 24 from rfl] at hspan
  by_cases hsmn : s = mn
  · rw [leakyLo, if_pos hsmn, leakyHi]
    by_cases hsmx : s = mx
    · rw [if_pos hsmx]
      norm_num [FREQUENCY_BITS]
    · rw [if_neg hsmx]
      omega
  · by_cases hsmx : s = mx
    · rw [leakyLo, if_neg hsmn, leakyHi, if_pos hsmx,
        show (2 : Nat) ^ FREQUENCY_BITS = 2 ^ 24 from rfl]
      have hb := hg.2 (s - 1)
      rw [show (2 : Nat) ^ FREQUENCY_BITS = 2 ^ 24 from rfl] at hb
      omega
    · rw [leakyLo, if_neg hsmn, leakyHi, if_neg hsmx]
      have hm := hg.1 (s - 1) s (by omega)
      omega

lemma leakyLo_mono_step (mn mx : ℤ) (g : ℤ → Nat) (hg : CdfOK mn mx g)
    (hspan : (mx - mn).toNat + 1 ≤ 2 ^ FREQUENCY_BITS) (n : Nat) :
    ∀ s : ℤ, mn ≤ s → s + n ≤ mx → leakyLo mn g s ≤ leakyLo mn g (s + n) := by
  induction n with
  | zero =>
    intro s _ _
    norm_num
  | succ n ih =>
    intro s h1 h2
    have h2' : s + (n : ℤ) ≤ mx := by push_cast at h2 ⊢; omega
    have e : s + ((n + 1 : Nat) : ℤ) = (s + n) + 1 := by push_cast; ring
    rw [e]
    calc leakyLo mn g s ≤ leakyLo mn g (s + n) := ih s h1 h2'
      _ ≤ leakyHi mn mx g (s + n) :=
          le_of_lt (leakyLo_lt_hi mn mx g hg hspan _ (by omega)
            (by push_cast at h2; omega))
      _ = leakyLo mn g (s + n + 1) :=
          leakyHi_eq_lo_succ mn mx g _ (by omega) (by push_cast at h2; omega)

lemma leakyLo_le (mn mx : ℤ) (g : ℤ → Nat) (hg : CdfOK mn mx g)
    (hspan : (mx - mn).toNat + 1 ≤ 2 ^ FREQUENCY_BITS) (s t : ℤ)
    (h1 : mn ≤ s) (h2 : s ≤ t) (h3 : t ≤ mx) :
    leakyLo mn g s ≤ leakyLo mn g t := by
  have e : t = s + ((t - s).toNat : ℤ) := by omega
  rw [e]
  exact leakyLo_mono_step mn mx g hg hspan (t - s).toNat s h1 (by omega)

lemma leakyFind_correct (mn mx : ℤ) (g : ℤ → Nat) (hg : CdfOK mn mx g)
    (hspan : (mx - mn).toNat + 1 ≤ 2 ^ FREQUENCY_BITS) (s0 : ℤ) (q : Nat)
    (hs1 : mn ≤ s0) (hs2 : s0 ≤ mx)
    (hq1 : leakyLo mn g s0 ≤ q) (hq2 : q < leakyHi mn mx g s0) :
    ∀ (fuel : Nat) (s : ℤ), mn ≤ s → s ≤ s0 → (s0 - s).toNat ≤ fuel →
      leakyFind mn mx g q fuel s =
        (s0, leakyLo mn g s0, leakyHi mn mx g s0 - leakyLo mn g s0) := by
  intro fuel
  induction fuel with
  | zero =>
    intro s h1 h2 h3
    have heq : s = s0 := by omega
    subst heq
    rfl
  | succ fuel ih =>
    intro s h1 h2 h3
    by_cases hcase : s = s0
    · subst hcase
      simp only [leakyFind, if_pos hq2]
    · have hlt : s < s0 := by omega
      have hnot : ¬ q < leakyHi mn mx g s := by
        have e1 : leakyHi mn mx g s = leakyLo mn g (s + 1) :=
          leakyHi_eq_lo_succ mn mx g s h1 (by omega)
        have e2 : leakyLo mn g (s + 1) ≤ leakyLo mn g s0 :=
          leakyLo_le mn mx g hg hspan (s + 1) s0 (by omega) (by omega) hs2
        omega
      simp only [leakyFind, if_neg hnot]
      exact ih (s + 1) (by omega) (by omega) (by omega)

lemma leakyHi_le (mn mx : ℤ) (g : ℤ → Nat) (hg : CdfOK mn mx g)
    (hspan : (mx - mn).toNat + 1 ≤ 2 ^ FREQUENCY_BITS) (s : ℤ)
    (h1 : mn ≤ s) (h2 : s ≤ mx) :
    leakyHi mn mx g s ≤ 2 ^ 24 := by
  rw [show (2 : Nat) ^ FREQUENCY_BITS = 2 ^ 24 from rfl] at hspan
  by_cases hsmx : s = mx
  · rw [leakyHi, if_pos hsmx]
    norm_num [FREQUENCY_BITS]
  · rw [leakyHi, if_neg hsmx]
    have hb := hg.2 s
    rw [show (2 : Nat) ^ FREQUENCY_BITS = 2 ^ 24 from rfl] at hb
    omega

/-- Every in-range symbol of a leaky quantizer over an alphabet of at least
two symbols is a strict valid pair. -/
lemma leakyQuantize_strictPair (mn mx : ℤ) (g : ℤ → Nat) (hg : CdfOK mn mx g)
    (hmn : mn < mx) (hspan : (mx - mn).toNat + 1 ≤ 2 ^ FREQUENCY_BITS)
    (s : ℤ) (h1 : mn ≤ s) (h2 : s ≤ mx) :
    StrictPair (leakyQuantize mn mx g) s := by
  have hlcp : (leakyQuantize mn mx g).left_cumulative_and_probability s =
      (leakyLo mn g s, leakyHi mn mx g s - leakyLo mn g s) := rfl
  have hlo_hi := leakyLo_lt_hi mn mx g hg hspan s h1 h2
  have hhi_le := leakyHi_le mn mx g hg hspan s h1 h2
  have hlo_pos : s ≠ mn → 1 ≤ leakyLo mn g s := by
    intro hne
    rw [leakyLo, if_neg hne]
    omega
  have hstrict : leakyHi mn mx g s - leakyLo mn g s < 2 ^ 24 := by
    by_cases hsmn : s = mn
    · have hmnmx : s ≠ mx := by omega
      rw [leakyLo, if_pos hsmn, leakyHi, if_neg hmnmx]
      have hb := hg.2 s
      rw [show (2 : Nat) ^ FREQUENCY_BITS = 2 ^ 24 from rfl] at hb hspan
      omega
    · have := hlo_pos hsmn
      omega
  refine ⟨⟨?_, ?_, ?_⟩, ?_⟩
  · rw [hlcp]
    simp only
    omega
  · rw [hlcp]
    show leakyLo mn g s + (leakyHi mn mx g s - leakyLo mn g s) ≤ 2 ^ 24
    omega
  · intro q hq1 hq2
    rw [hlcp] at hq1 hq2 ⊢
    simp only at hq1 hq2
    have hq2' : q < leakyHi mn mx g s := by omega
    show leakyFind mn mx g q (mx - mn).toNat mn = _
    rw [leakyFind_correct mn mx g hg hspan s q h1 h2 hq1 hq2' (mx - mn).toNat mn
      (le_refl mn) h1 (by omega)]
  · rw [hlcp]
    exact hstrict

end LeakyQuantizer

section GaussianBatch

/-- The lower bound `1 - (1 << 15)` of the quantizer alphabet used by the
Gaussian batch helpers in `lib.rs`. -/
def QMIN : ℤ := 1 - 2 ^ 15

/-- The upper bound `1 << 15` of the quantizer alphabet used by the Gaussian
batch helpers in `lib.rs`. -/
def QMAX : ℤ := 2 ^ 15

/-- Function `push_gaussian_symbols` from `lib.rs`: quantize each
distribution with a LeakyQuantizer over `[1 - 2 ^ 15, 2 ^ 15]` and push the
symbols in index order.  Modelled from the spec where `lib.rs` depends on the
missing `distributions` module: each `Normal(mean_i, std_i)` is represented
by its discretized CDF `g_i : ℤ → ℕ` (the floating-point Normal CDF of the
external statrs crate is consumed through an interface, spec §1). -/
def AnsCoder.push_gaussian_symbols (X : AnsCoder) (symbols : List ℤ)
    (gs : List (ℤ → Nat)) : AnsCoder :=
  X.push_symbols ((symbols.zip gs).map (fun sg => (sg.1, leakyQuantize QMIN QMAX sg.2)))

/-- Function `pop_gaussian_symbols` from `lib.rs`: on an empty parameter list
return `Ok` of an empty vector at once; otherwise pop once per distribution
in reverse index order, writing the results back to front, so the returned
vector is in forward order. -/
def AnsCoder.pop_gaussian_symbols (X : AnsCoder) (gs : List (ℤ → Nat)) :
    Except Unit (List ℤ × AnsCoder) :=
  if gs.isEmpty then Except.ok ([], X)
  else
    match X.pop_symbols (gs.reverse.map (fun g => leakyQuantize QMIN QMAX g)) with
    | Except.error e => Except.error e
    | Except.ok (ss, X') => Except.ok (ss.reverse, X')

/-- The Gaussian batch round trip for any normalized starting coder. -/
lemma gaussian_roundtrip (symbols : List ℤ) (gs : List (ℤ → Nat))
    (hlen : symbols.length = gs.length)
    (hg : ∀ g ∈ gs, CdfOK QMIN QMAX g)
    (hs : ∀ s ∈ symbols, QMIN ≤ s ∧ s ≤ QMAX)
    (X : AnsCoder) (hXlo : 2 ^ 32 ≤ X.state) (hXhi : X.state < 2 ^ 64) :
    (X.push_gaussian_symbols symbols gs).pop_gaussian_symbols gs =
      Except.ok (symbols, X) := by
  by_cases hnil : gs = []
  · have hsymnil : symbols = [] := by
      rw [hnil] at hlen
      exact List.length_eq_zero.mp hlen
    rw [hnil, hsymnil]
    rfl
  · have hLfst : ((symbols.zip gs).map
        (fun sg => (sg.1, leakyQuantize QMIN QMAX sg.2))).map Prod.fst = symbols := by
      rw [List.map_map]
      exact List.map_fst_zip symbols gs (le_of_eq hlen)
    have hLsnd : ((symbols.zip gs).map
        (fun sg => (sg.1, leakyQuantize QMIN QMAX sg.2))).map Prod.snd =
        gs.map (fun g => leakyQuantize QMIN QMAX g) := by
      rw [List.map_map]
      have h1 : (Prod.snd ∘ fun sg : ℤ × (ℤ → Nat) =>
          (sg.1, leakyQuantize QMIN QMAX sg.2)) =
          (fun g => leakyQuantize QMIN QMAX g) ∘ Prod.snd := rfl
      rw [h1, ← List.map_map]
      rw [List.map_snd_zip symbols gs (le_of_eq hlen.symm)]
    have hstrictL : ∀ sd ∈ (symbols.zip gs).map
        (fun sg => (sg.1, leakyQuantize QMIN QMAX sg.2)), StrictPair sd.2 sd.1 := by
      intro sd hsd
      simp only [List.mem_map] at hsd
      obtain ⟨⟨s, g⟩, hmem, rfl⟩ := hsd
      obtain ⟨hsm, hgm⟩ := List.of_mem_zip hmem
      exact leakyQuantize_strictPair QMIN QMAX g (hg g hgm)
        (by norm_num [QMIN, QMAX]) (by decide)
        s (hs s hsm).1 (hs s hsm).2
    have hrt := roundtrip_general _ X hstrictL hXlo hXhi
    have hne : ¬ gs.isEmpty = true := by
      simp [hnil]
    rw [AnsCoder.push_gaussian_symbols, AnsCoder.pop_gaussian_symbols, if_neg hne]
    have hrev : gs.reverse.map (fun g => leakyQuantize QMIN QMAX g) =
        ((symbols.zip gs).map
          (fun sg => (sg.1, leakyQuantize QMIN QMAX sg.2))).reverse.map Prod.snd := by
      rw [List.map_reverse, List.map_reverse, hLsnd]
    rw [hrev, hrt]
    dsimp only
    rw [List.map_reverse, hLfst, List.reverse_reverse]

end GaussianBatch

section ErrorModel

/-- The error taxonomy of spec §7. -/
inductive CoderError where
  | UnsupportedSymbol
  | Underflow
  | NotFullyConsumed
deriving DecidableEq

/-- Modelled from the spec (§4.2, §7): the checked forward lookup of the
LeakyQuantizer from the missing `distributions` module — an
outside-of-range forward lookup fails with `UnsupportedSymbol`. -/
def leakyChecked (mn mx : ℤ) (g : ℤ → Nat) (s : ℤ) :
    Except CoderError (Nat × Nat) :=
  if mn ≤ s ∧ s ≤ mx then
    Except.ok (leakyLo mn g s, leakyHi mn mx g s - leakyLo mn g s)
  else Except.error CoderError.UnsupportedSymbol

/-- Modelled from the spec (§7): `push_symbol` with a fallible forward
lookup surfaces the lookup's failure to the caller unchanged and without
retry; on success it performs exactly the `push_symbol` steps of
`lib.rs`. -/
def AnsCoder.push_symbol_checked (X : AnsCoder) (s : ℤ)
    (dc : ℤ → Except CoderError (Nat × Nat)) : Except CoderError AnsCoder :=
  match dc s with
  | Except.error e => Except.error e
  | Except.ok cp => Except.ok (X.push_with cp)

end ErrorModel

section IidCategorical

/-- Function `pop_iid_categorical_symbols` from `lib.rs`: for `amt = 0`
return `Ok` of an empty vector before the `Categorical` is built; otherwise
construct the distribution once and pop `amt` symbols in reverse index
order, emitting them in forward order.
`Categorical::from_continuous_probabilities` lives in the crate's missing
`distributions` module; it is taken as the explicit argument `fcp`, so the
embedding is faithful to `lib.rs` for every possible construction. -/
def AnsCoder.pop_iid_categorical_symbols {W : Type} (X : AnsCoder) (amt : Nat)
    (min_supported_symbol max_supported_symbol min_provided_symbol : ℤ)
    (probabilities : List W)
    (fcp : ℤ → ℤ → ℤ → List W → DiscreteDistribution ℤ) :
    Except Unit (List ℤ × AnsCoder) :=
  if amt = 0 then Except.ok ([], X)
  else
    match X.pop_symbols (List.replicate amt
        (fcp min_supported_symbol max_supported_symbol min_provided_symbol
          probabilities)) with
    | Except.error e => Except.error e
    | Except.ok (ss, X') => Except.ok (ss.reverse, X')

end IidCategorical

section SpecReference

/-- The `push_symbol` step exactly as the spec (§4.4) words it: the guard is
the mathematical comparison `state ≥ p · 2 ^ (64 − F)` and no arithmetic
wraps.  This is the refinement reference for C3 and C7. -/
def AnsCoder.push_with_spec (coder : AnsCoder) (cp : Nat × Nat) : AnsCoder :=
  let c := cp.1
  let p := cp.2
  let buf1 := if p * 2 ^ (64 - FREQUENCY_BITS) ≤ coder.state
              then coder.buf ++ [coder.state % 2 ^ 32] else coder.buf
  let st1 := if p * 2 ^ (64 - FREQUENCY_BITS) ≤ coder.state
             then coder.state >>> 32 else coder.state
  let pfx := st1 / p
  let sfx := st1 % p + c
  ⟨buf1, (pfx <<< FREQUENCY_BITS) ||| sfx⟩

/-- Spec-worded `push_symbol` (§4.4). -/
def AnsCoder.push_symbol_spec {S : Type} (coder : AnsCoder) (symbol : S)
    (d : DiscreteDistribution S) : AnsCoder :=
  coder.push_with_spec (d.left_cumulative_and_probability symbol)

/-- The `pop_symbol` step exactly as the spec (§4.4) words it: the state
update `p · prefix + (suffix − c)` is the mathematical value, without the
64-bit reduction.  This is the refinement reference for C7. -/
def AnsCoder.pop_symbol_spec {S : Type} (coder : AnsCoder)
    (d : DiscreteDistribution S) : Except Unit (S × AnsCoder) :=
  let pfx := coder.state >>> FREQUENCY_BITS
  let sfx := coder.state % 2 ^ FREQUENCY_BITS
  let scp := d.quantile_function sfx
  let st1 := scp.2.2 * pfx + (sfx - scp.2.1)
  if st1 < 2 ^ 32 then
    match coder.buf.getLast? with
    | none => Except.error ()
    | some w => Except.ok (scp.1, ⟨coder.buf.dropLast, (st1 <<< 32) ||| w⟩)
  else
    Except.ok (scp.1, ⟨coder.buf, st1⟩)

/-- For `p < 2 ^ 24` (and `c + p ≤ 2 ^ 24`, register below `2 ^ 64`) the
wrapping implementation of the push step agrees with the spec wording. -/
lemma push_with_eq_spec (X : AnsCoder) (c p : Nat) (hp : 1 ≤ p)
    (hplt : p < 2 ^ 24) (hcp : c + p ≤ 2 ^ 24) (hhi : X.state < 2 ^ 64) :
    X.push_with (c, p) = X.push_with_spec (c, p) := by
  have hF : (64 - FREQUENCY_BITS) = 40 := rfl
  rcases le_or_lt (p * 2 ^ 40) X.state with hG | hG
  · rw [push_with_spill X c p hp hplt hcp hhi hG]
    have hG' : p * 2 ^ (64 - FREQUENCY_BITS) ≤ X.state := by rw [hF]; exact hG
    have hmod : X.state / 2 ^ 32 % p < p := Nat.mod_lt _ (by omega)
    have hsfx : X.state / 2 ^ 32 % p + c < 2 ^ 24 := by omega
    simp only [AnsCoder.push_with_spec, if_pos hG', Nat.shiftRight_eq_div_pow]
    congr 1
    rw [show FREQUENCY_BITS = 24 from rfl, shiftLeft_or_eq_add _ _ _ hsfx]
  · rw [push_with_nospill X c p hp hplt hcp hG]
    have hG' : ¬ p * 2 ^ (64 - FREQUENCY_BITS) ≤ X.state := by rw [hF]; omega
    have hmod : X.state % p < p := Nat.mod_lt _ (by omega)
    have hsfx : X.state % p + c < 2 ^ 24 := by omega
    simp only [AnsCoder.push_with_spec, if_neg hG']
    congr 1
    rw [show FREQUENCY_BITS = 24 from rfl, shiftLeft_or_eq_add _ _ _ hsfx]

end SpecReference

section ConcreteLemmas

lemma validPair_dFull : ValidPair dFull 0 :=
  ⟨by decide, by decide, fun q _ _ => rfl⟩

lemma quantileOK_dFull : QuantileOK dFull := by
  intro q hq
  rw [show FREQUENCY_BITS = 24 from rfl] at hq
  exact ⟨by norm_num [dFull], by norm_num [dFull],
    by simpa [dFull] using hq, by norm_num [dFull, FREQUENCY_BITS], rfl⟩

lemma validPair_dB : ValidPair dB 1 := by
  refine ⟨by decide, by decide, ?_⟩
  intro q h1 h2
  have h1' : 100 ≤ q := h1
  have h2' : q < 116 := h2
  show dB.quantile_function q = (1, 100, 16)
  simp only [dB]
  rw [if_neg (by omega), if_pos (by omega)]

lemma strictPair_dB : StrictPair dB 1 :=
  ⟨validPair_dB, by decide⟩

lemma quantileOK_dB : QuantileOK dB := by
  intro q hq
  rw [show FREQUENCY_BITS = 24 from rfl] at hq
  by_cases hA : q < 100
  · simp only [dB, if_pos hA]
    exact ⟨by decide, by omega, by omega, by decide, by decide⟩
  · by_cases hB : q < 116
    · simp only [dB, if_neg hA, if_pos hB]
      exact ⟨by decide, by omega, by omega, by decide, by decide⟩
    · simp only [dB, if_neg hA, if_neg hB]
      exact ⟨by decide, by omega, by omega, by decide, by decide⟩

lemma validPair_dE : ValidPair dE 4 := by
  refine ⟨by decide, by decide, ?_⟩
  intro q h1 h2
  have h2' : q < 2 ^ 23 := h2
  show dE.quantile_function q = (4, 0, 2 ^ 23)
  simp only [dE]
  rw [if_pos (by omega)]

lemma quantileOK_dE : QuantileOK dE := by
  intro q hq
  rw [show FREQUENCY_BITS = 24 from rfl] at hq
  by_cases hA : q < 2 ^ 23
  · simp only [dE, if_pos hA]
    exact ⟨by decide, by omega, by omega, by decide, by decide⟩
  · simp only [dE, if_neg hA]
    exact ⟨by decide, by omega, by omega, by decide, by decide⟩

lemma validPair_dUnit : ValidPair dUnit 0 := by
  refine ⟨by decide, by decide, ?_⟩
  intro q h1 h2
  have h2' : q < 1 := h2
  show dUnit.quantile_function q = (0, 0, 1)
  simp only [dUnit]
  rw [if_pos (by omega)]

lemma quantileOK_dUnit : QuantileOK dUnit := by
  intro q hq
  rw [show FREQUENCY_BITS = 24 from rfl] at hq
  by_cases hA : q = 0
  · simp only [dUnit, if_pos hA]
    exact ⟨by decide, by omega, by omega, by decide, by decide⟩
  · simp only [dUnit, if_neg hA]
    exact ⟨by decide, by omega, by omega, by decide, by decide⟩

lemma validPair_dWide : ValidPair dWide 0 := by
  refine ⟨by decide, by decide, ?_⟩
  intro q h1 h2
  have h2' : q < 2 ^ 16 := h2
  show dWide.quantile_function q = (0, 0, 2 ^ 16)
  simp only [dWide]
  rw [if_pos (by omega)]

lemma quantileOK_dWide : QuantileOK dWide := by
  intro q hq
  rw [show FREQUENCY_BITS = 24 from rfl] at hq
  by_cases hA : q < 2 ^ 16
  · simp only [dWide, if_pos hA]
    exact ⟨by decide, by omega, by omega, by decide, by decide⟩
  · simp only [dWide, if_neg hA]
    exact ⟨by decide, by omega, by omega, by decide, by decide⟩

end ConcreteLemmas

section PopSpec

/-- The register value `pop_symbol` computes in its update step (spec §4.4,
step 3), as stored into the 64-bit register. -/
def popUpdatedState {S : Type} (d : DiscreteDistribution S) (X : AnsCoder) : Nat :=
  ((d.quantile_function (X.state % 2 ^ FREQUENCY_BITS)).2.2 *
      (X.state >>> FREQUENCY_BITS) +
    (X.state % 2 ^ FREQUENCY_BITS -
      (d.quantile_function (X.state % 2 ^ FREQUENCY_BITS)).2.1)) % 2 ^ 64

/-- Under the decode-side contract the pop update value does not overflow 64
bits. -/
lemma pop_update_no_overflow {S : Type} (d : DiscreteDistribution S)
    (X : AnsCoder) (hq : QuantileOK d) (hhi : X.state < 2 ^ 64) :
    (d.quantile_function (X.state % 2 ^ FREQUENCY_BITS)).2.2 *
        (X.state >>> FREQUENCY_BITS) +
      (X.state % 2 ^ FREQUENCY_BITS -
        (d.quantile_function (X.state % 2 ^ FREQUENCY_BITS)).2.1) < 2 ^ 64 := by
  obtain ⟨h1, h2, h3, h4, -⟩ := hq (X.state % 2 ^ 24)
    (by rw [show FREQUENCY_BITS = 24 from rfl]; exact Nat.mod_lt _ (by norm_num))
  rw [show FREQUENCY_BITS = 24 from rfl] at h4 ⊢
  rw [Nat.shiftRight_eq_div_pow]
  set sfx := X.state % 2 ^ 24
  set c := (d.quantile_function sfx).2.1
  set p := (d.quantile_function sfx).2.2
  have hp24 : p ≤ 2 ^ 24 := by omega
  have hpfx_lt : X.state / 2 ^ 24 < 2 ^ 40 := by omega
  have hsc : sfx - c < p := by omega
  have hub : p * (X.state / 2 ^ 24) + (sfx - c) + 1 ≤ p * (X.state / 2 ^ 24 + 1) := by
    have h5 : p * (X.state / 2 ^ 24 + 1) = p * (X.state / 2 ^ 24) + p := by ring
    omega
  have hub2 : p * (X.state / 2 ^ 24 + 1) ≤ 2 ^ 24 * 2 ^ 40 :=
    Nat.mul_le_mul hp24 (by omega)
  omega

/-- Under the decode-side contract the implementation's `pop_symbol` agrees
with the spec-worded `pop_symbol_spec`. -/
lemma pop_symbol_eq_spec {S : Type} (d : DiscreteDistribution S)
    (X : AnsCoder) (hq : QuantileOK d) (hhi : X.state < 2 ^ 64) :
    X.pop_symbol d = X.pop_symbol_spec d := by
  have hv := pop_update_no_overflow d X hq hhi
  rw [AnsCoder.pop_symbol, AnsCoder.pop_symbol_spec, Nat.mod_eq_of_lt hv]

end PopSpec

section SharedClaimHelpers

/-- For strict pairs the implementation's push agrees with the spec-worded
push (shared helper for the C3 and C7 theorems). -/
lemma push_symbol_eq_spec_of_bounds {S : Type} (d : DiscreteDistribution S)
    (s : S) (X : AnsCoder)
    (hp : 1 ≤ (d.left_cumulative_and_probability s).2)
    (hplt : (d.left_cumulative_and_probability s).2 < 2 ^ 24)
    (hcp : (d.left_cumulative_and_probability s).1 +
      (d.left_cumulative_and_probability s).2 ≤ 2 ^ 24)
    (hhi : X.state < 2 ^ 64) :
    X.push_symbol s d = X.push_symbol_spec s d := by
  have h := push_with_eq_spec X (d.left_cumulative_and_probability s).1
    (d.left_cumulative_and_probability s).2 hp hplt hcp hhi
  rw [AnsCoder.push_symbol, AnsCoder.push_symbol_spec]
  rw [show d.left_cumulative_and_probability s =
    ((d.left_cumulative_and_probability s).1,
     (d.left_cumulative_and_probability s).2) from (Prod.mk.eta).symm]
  exact h

end SharedClaimHelpers

section Claims

/-- C1, counterexample.  The three distributions `dFull`, `dB`, `dE` satisfy
the discrete-distribution interface contract (probabilities in `[1, 2 ^ 24]`
summing to `2 ^ 24` over their supports, quantile function mutually
consistent with the forward lookup), and the pushed symbols are in their
supports; yet pushing `0, 1, 4` in order from a fresh coder and popping with
the same distributions in reverse order does not return the symbols — the
run aborts with the underflow error, because the renormalization guard
`(p as u64) << 40` wraps to `0` for `p = 2 ^ 24` and the coder leaves the
normalized regime. -/
theorem C1_roundtrip_cex :
    (ValidPair dFull 0 ∧ QuantileOK dFull ∧
      (dFull.left_cumulative_and_probability 0).2 = 2 ^ 24 ∧
     ValidPair dB 1 ∧ QuantileOK dB ∧
      (dB.left_cumulative_and_probability 2).2 +
        (dB.left_cumulative_and_probability 1).2 +
        (dB.left_cumulative_and_probability 3).2 = 2 ^ 24 ∧
     ValidPair dE 4 ∧ QuantileOK dE ∧
      (dE.left_cumulative_and_probability 4).2 +
        (dE.left_cumulative_and_probability 5).2 = 2 ^ 24) ∧
    (AnsCoder.push_symbols AnsCoder.new
        [((0 : ℤ), dFull), (1, dB), (4, dE)]).pop_symbols [dE, dB, dFull] =
      Except.error () ∧
    (AnsCoder.push_symbols AnsCoder.new
        [((0 : ℤ), dFull), (1, dB), (4, dE)]).pop_symbols [dE, dB, dFull] ≠
      Except.ok ([4, 1, 0], AnsCoder.new) :=
  ⟨⟨validPair_dFull, quantileOK_dFull, by decide,
    validPair_dB, quantileOK_dB, by decide,
    validPair_dE, quantileOK_dE, by decide⟩,
   by decide, by decide⟩

/-- C1, amended.  For any sequence of symbol/distribution pairs in which
every pushed symbol is in the support of its distribution, the interface
contract holds at that symbol, and additionally every probability is
strictly below `2 ^ 24`: pushing in order `0..n` from a fresh coder and then
popping with the same distributions in reverse order returns `Ok(s_i)` at
each corresponding step (the popped list equals the reversed pushed
symbols), restores the fresh coder, and `finish_decoding` succeeds. -/
theorem C1_roundtrip {S : Type} (L : List (S × DiscreteDistribution S))
    (h : ∀ sd ∈ L, StrictPair sd.2 sd.1) :
    (AnsCoder.new.push_symbols L).pop_symbols (L.reverse.map Prod.snd) =
      Except.ok (L.reverse.map Prod.fst, AnsCoder.new) ∧
    AnsCoder.new.finish_decoding = Except.ok () :=
  ⟨roundtrip_general L AnsCoder.new h (by decide) (by decide), rfl⟩

/-- Witness for the amended C1 at the concrete one-element sequence
`[(1, dB)]`. -/
theorem C1_roundtrip_witness :
    (∀ sd ∈ [((1 : ℤ), dB)], StrictPair sd.2 sd.1) ∧
    ((AnsCoder.new.push_symbols [((1 : ℤ), dB)]).pop_symbols [dB] =
        Except.ok ([1], AnsCoder.new) ∧
      AnsCoder.new.finish_decoding = Except.ok ()) :=
  ⟨fun sd hsd => by rw [List.mem_singleton.mp hsd]; exact strictPair_dB,
   C1_roundtrip [((1 : ℤ), dB)]
     (fun sd hsd => by rw [List.mem_singleton.mp hsd]; exact strictPair_dB)⟩

/-- C2, counterexample.  Both halves of the claim fail on the code.  First,
`dFull` satisfies the interface contract, yet one push from a fresh coder
leaves the register at `1`, far below `2 ^ 32` (the wrapping guard
`(2 ^ 24 << 40) mod 2 ^ 64 = 0` makes renormalize-out fire and the update
halves the register).  Second, even with probabilities strictly below
`2 ^ 24` (`dUnit` has `p = 1`, `dWide` has `p = 2 ^ 16`), two pushes reach
the coder `⟨[0], 2 ^ 32⟩`, whose register equals exactly `2 ^ 32` although
it is not the initial/cleared coder. -/
theorem C2_normalized_cex :
    (ValidPair dFull 0 ∧ QuantileOK dFull ∧
     ReachContract (AnsCoder.new.push_symbol (0 : ℤ) dFull) ∧
     (AnsCoder.new.push_symbol (0 : ℤ) dFull).state = 1 ∧
     ¬ 2 ^ 32 ≤ (AnsCoder.new.push_symbol (0 : ℤ) dFull).state) ∧
    (ValidPair dUnit 0 ∧ ValidPair dWide 0 ∧
     StrictPair dUnit 0 ∧ StrictPair dWide 0 ∧
     ReachContract ((AnsCoder.new.push_symbol (0 : ℤ) dUnit).push_symbol
       (0 : ℤ) dWide) ∧
     ((AnsCoder.new.push_symbol (0 : ℤ) dUnit).push_symbol (0 : ℤ) dWide).state =
       2 ^ 32 ∧
     (AnsCoder.new.push_symbol (0 : ℤ) dUnit).push_symbol (0 : ℤ) dWide ≠
       AnsCoder.new) :=
  ⟨⟨validPair_dFull, quantileOK_dFull,
    ReachContract.push dFull 0 validPair_dFull ReachContract.init,
    by decide, by decide⟩,
   ⟨validPair_dUnit, validPair_dWide,
    ⟨validPair_dUnit, by decide⟩, ⟨validPair_dWide, by decide⟩,
    ReachContract.push dWide 0 validPair_dWide
      (ReachContract.push dUnit 0 validPair_dUnit ReachContract.init),
    by decide, by decide⟩⟩

/-- C2, amended.  For every coder reachable from a fresh coder by pushes of
contract-satisfying pairs whose probabilities are strictly below `2 ^ 24`
and by successful pops under the decode-side contract, the 64-bit register
lies in the normalized range `[2 ^ 32, 2 ^ 64)`.  (The original claim's
second half — that the register equals `2 ^ 32` only in the initial coder —
is dropped: it fails even for strict probabilities.) -/
theorem C2_normalized (X : AnsCoder) (h : ReachStrict X) :
    2 ^ 32 ≤ X.state ∧ X.state < 2 ^ 64 :=
  ⟨(reachStrict_invariant X h).1, (reachStrict_invariant X h).2.1⟩

/-- Witness for the amended C2 at the fresh coder. -/
theorem C2_normalized_witness :
    ReachStrict AnsCoder.new ∧
    (2 ^ 32 ≤ AnsCoder.new.state ∧ AnsCoder.new.state < 2 ^ 64) :=
  ⟨ReachStrict.init, C2_normalized AnsCoder.new ReachStrict.init⟩

/-- C3, counterexample.  `dFull` satisfies the interface contract with
`(c, p) = (0, 2 ^ 24)`, but `push_symbol` on a fresh coder does not perform
the two steps with the exact guard `state ≥ p · 2 ^ 40`: the code's guard is
the wrapping shift `(p as u64) << 40`, which is `0` for `p = 2 ^ 24`, so the
code spills a word (yielding `⟨[0], 1⟩`) while the claimed description
leaves the buffer alone (yielding `⟨[], 2 ^ 32⟩`). -/
theorem C3_push_step_cex :
    ValidPair dFull 0 ∧ QuantileOK dFull ∧
    AnsCoder.push_symbol AnsCoder.new (0 : ℤ) dFull = ⟨[0], 1⟩ ∧
    AnsCoder.push_symbol_spec AnsCoder.new (0 : ℤ) dFull = ⟨[], 2 ^ 32⟩ ∧
    AnsCoder.push_symbol AnsCoder.new (0 : ℤ) dFull ≠
      AnsCoder.push_symbol_spec AnsCoder.new (0 : ℤ) dFull :=
  ⟨validPair_dFull, quantileOK_dFull, by decide, by decide, by decide⟩

/-- C3, amended.  For `(c, p) = left_cumulative_and_probability(symbol)`
with `1 ≤ p`, `c + p ≤ 2 ^ 24` and `p` strictly below `2 ^ 24`,
`push_symbol` performs exactly the claimed two steps: if
`state ≥ p · 2 ^ (64 − 24)` it appends the low 32 bits of `state` to `buf`
and halves the register (otherwise `buf` is unchanged), then it sets
`state := ((state / p) << 24) | ((state mod p) + c)`; no other field
changes (`push_symbol_spec` is the literal transcription of those steps
with exact arithmetic). -/
theorem C3_push_step {S : Type} (d : DiscreteDistribution S) (s : S)
    (X : AnsCoder)
    (hp : 1 ≤ (d.left_cumulative_and_probability s).2)
    (hplt : (d.left_cumulative_and_probability s).2 < 2 ^ 24)
    (hcp : (d.left_cumulative_and_probability s).1 +
      (d.left_cumulative_and_probability s).2 ≤ 2 ^ 24)
    (hhi : X.state < 2 ^ 64) :
    X.push_symbol s d = X.push_symbol_spec s d :=
  push_symbol_eq_spec_of_bounds d s X hp hplt hcp hhi

/-- Witness for the amended C3 at `dB`, symbol `1`, fresh coder. -/
theorem C3_push_step_witness :
    (1 ≤ (dB.left_cumulative_and_probability 1).2 ∧
     (dB.left_cumulative_and_probability 1).2 < 2 ^ 24 ∧
     (dB.left_cumulative_and_probability 1).1 +
       (dB.left_cumulative_and_probability 1).2 ≤ 2 ^ 24 ∧
     AnsCoder.new.state < 2 ^ 64) ∧
    AnsCoder.push_symbol AnsCoder.new (1 : ℤ) dB =
      AnsCoder.push_symbol_spec AnsCoder.new (1 : ℤ) dB :=
  ⟨⟨by decide, by decide, by decide, by decide⟩,
   C3_push_step dB 1 AnsCoder.new (by decide) (by decide) (by decide) (by decide)⟩

/-- C4, confirmed.  In `pop_symbol`, whenever the updated register value is
below `2 ^ 32`, a 32-bit word `w` is popped from the end of `buf` and the
register becomes `(state << 32) | w`; and if `buf` is empty when this refill
is required, `pop_symbol` returns the underflow error (`Err` to the caller,
not retried).  Decoding a truncated stream therefore makes the pop that
needs the missing word return the underflow error. -/
theorem C4_pop_refill {S : Type} (d : DiscreteDistribution S) (X : AnsCoder)
    (hlt : popUpdatedState d X < 2 ^ 32) :
    (X.buf = [] → X.pop_symbol d = Except.error ()) ∧
    ∀ (B : List Nat) (w : Nat), X.buf = B ++ [w] →
      X.pop_symbol d = Except.ok
        ((d.quantile_function (X.state % 2 ^ FREQUENCY_BITS)).1,
         ⟨B, (popUpdatedState d X <<< 32) ||| w⟩) := by
  rw [popUpdatedState] at hlt
  constructor
  · intro hbuf
    rw [AnsCoder.pop_symbol, if_pos hlt, hbuf]
    rfl
  · intro B w hbuf
    rw [AnsCoder.pop_symbol, if_pos hlt, hbuf, List.getLast?_concat,
      List.dropLast_concat]
    rfl

/-- Witness for C4: popping `dUnit` from the coder `⟨[], 5⟩` needs a refill
(the updated register is `4 < 2 ^ 32`) and the empty buffer yields the
underflow error. -/
theorem C4_pop_refill_witness :
    popUpdatedState dUnit (AnsCoder.mk [] 5) < 2 ^ 32 ∧
    AnsCoder.pop_symbol (AnsCoder.mk [] 5) dUnit = Except.error () :=
  ⟨by decide, (C4_pop_refill dUnit (AnsCoder.mk [] 5) (by decide)).1 rfl⟩

/-- C5, confirmed.  `finish_decoding` succeeds exactly when `buf` is empty
and the register equals `2 ^ 32`, and returns the (single) error value
otherwise; a fresh coder satisfies `finish_decoding() = Ok`. -/
theorem C5_finish_decoding (X : AnsCoder) :
    (X.finish_decoding = Except.ok () ↔ X.buf = [] ∧ X.state = 2 ^ 32) ∧
    (X.finish_decoding = Except.ok () ∨ X.finish_decoding = Except.error ()) ∧
    AnsCoder.new.finish_decoding = Except.ok () := by
  refine ⟨?_, ?_, rfl⟩
  · rw [AnsCoder.finish_decoding, show (1 : Nat) <<< 32 = 2 ^ 32 from by decide]
    constructor
    · intro h
      by_contra hc
      rw [if_neg hc] at h
      exact Except.noConfusion h
    · intro h
      rw [if_pos h]
  · rw [AnsCoder.finish_decoding]
    by_cases h : X.buf = [] ∧ X.state = 1 <<< 32
    · exact Or.inl (by rw [if_pos h])
    · exact Or.inr (by rw [if_neg h])

/-- C6, confirmed.  `finish_encoding` returns the buffer with exactly two
words appended — the low 32 bits of the register followed by its high
32 bits — so the returned vector has length `|buf| + 2` and its size in
bits, `32 · (|buf| + 2)`, equals the value `num_bits()` would have returned
just before termination. -/
theorem C6_finish_encoding (X : AnsCoder) :
    X.finish_encoding = X.buf ++ [X.state % 2 ^ 32, (X.state >>> 32) % 2 ^ 32] ∧
    X.finish_encoding.length = X.buf.length + 2 ∧
    32 * X.finish_encoding.length = X.num_bits := by
  refine ⟨?_, ?_, ?_⟩
  · simp [AnsCoder.finish_encoding]
  · simp [AnsCoder.finish_encoding]
  · simp only [AnsCoder.finish_encoding, AnsCoder.num_bits,
      List.concat_eq_append, List.length_append, List.length_cons,
      List.length_nil]
    ring

/-- C7, counterexample.  With `dFull` (which satisfies the interface
contract, `p = 2 ^ 24`, `c = 0`, state `2 ^ 33` inside `[2 ^ 32, 2 ^ 64)`),
the shift `p << (64 − 24)` is not exact — it wraps to `0` instead of
`2 ^ 64` — and consequently `push_symbol` differs from the exact-arithmetic
description. -/
theorem C7_no_overflow_cex :
    ValidPair dFull 0 ∧ QuantileOK dFull ∧
    ((dFull.left_cumulative_and_probability 0).2 <<< (64 - FREQUENCY_BITS)) %
        2 ^ 64 ≠
      (dFull.left_cumulative_and_probability 0).2 * 2 ^ (64 - FREQUENCY_BITS) ∧
    AnsCoder.push_symbol (AnsCoder.mk [] (2 ^ 33)) (0 : ℤ) dFull ≠
      AnsCoder.push_symbol_spec (AnsCoder.mk [] (2 ^ 33)) (0 : ℤ) dFull :=
  ⟨validPair_dFull, quantileOK_dFull, by decide, by decide⟩

/-- C7, amended.  Under the stated invariants — register in
`[2 ^ 32, 2 ^ 64)`, forward lookup with `1 ≤ p`, `c + p ≤ 2 ^ 24` and `p`
strictly below `2 ^ 24`, inverse lookup satisfying the decode-side
contract — no integer operation in `push_symbol` or `pop_symbol` overflows
64-bit unsigned arithmetic and no subtraction underflows: the shift
`p << (64 − 24)` is exact, the whole push agrees with its exact-arithmetic
description, `c ≤ suffix` in the pop (so `suffix − c` is exact), the pop
update fits in 64 bits, and the whole pop agrees with its exact-arithmetic
description. -/
theorem C7_no_overflow {S : Type} (d : DiscreteDistribution S) (s : S)
    (X : AnsCoder) (hstrict : StrictPair d s) (hq : QuantileOK d)
    (hlo : 2 ^ 32 ≤ X.state) (hhi : X.state < 2 ^ 64) :
    ((d.left_cumulative_and_probability s).2 <<< (64 - FREQUENCY_BITS)) %
        2 ^ 64 =
      (d.left_cumulative_and_probability s).2 * 2 ^ (64 - FREQUENCY_BITS) ∧
    X.push_symbol s d = X.push_symbol_spec s d ∧
    (d.quantile_function (X.state % 2 ^ FREQUENCY_BITS)).2.1 ≤
      X.state % 2 ^ FREQUENCY_BITS ∧
    popUpdatedState d X =
      (d.quantile_function (X.state % 2 ^ FREQUENCY_BITS)).2.2 *
          (X.state >>> FREQUENCY_BITS) +
        (X.state % 2 ^ FREQUENCY_BITS -
          (d.quantile_function (X.state % 2 ^ FREQUENCY_BITS)).2.1) ∧
    X.pop_symbol d = X.pop_symbol_spec d := by
  obtain ⟨⟨hp, hcp, -⟩, hplt⟩ := hstrict
  rw [show (2 : Nat) ^ FREQUENCY_BITS = 2 ^ 24 from rfl] at hcp hplt
  refine ⟨?_, ?_, ?_, ?_, ?_⟩
  · rw [show (64 - FREQUENCY_BITS) = 40 from rfl, Nat.shiftLeft_eq]
    exact Nat.mod_eq_of_lt (by omega)
  · exact push_symbol_eq_spec_of_bounds d s X hp hplt hcp hhi
  · exact (hq (X.state % 2 ^ FREQUENCY_BITS)
      (Nat.mod_lt _ (by norm_num [FREQUENCY_BITS]))).2.1
  · rw [popUpdatedState]
    exact Nat.mod_eq_of_lt (pop_update_no_overflow d X hq hhi)
  · exact pop_symbol_eq_spec d X hq hhi

/-- Witness for the amended C7 at `dB`, symbol `1`, fresh coder (extracting
the push-agreement component). -/
theorem C7_no_overflow_witness :
    (StrictPair dB 1 ∧ QuantileOK dB ∧
     2 ^ 32 ≤ AnsCoder.new.state ∧ AnsCoder.new.state < 2 ^ 64) ∧
    AnsCoder.push_symbol AnsCoder.new (1 : ℤ) dB =
      AnsCoder.push_symbol_spec AnsCoder.new (1 : ℤ) dB :=
  ⟨⟨strictPair_dB, quantileOK_dB, by decide, by decide⟩,
   (C7_no_overflow dB 1 AnsCoder.new strictPair_dB quantileOK_dB
     (by decide) (by decide)).2.1⟩

/-- C8, confirmed (spec-modelled).  For equal-length parameter lists whose
symbols lie in `[1 - 2 ^ 15, 2 ^ 15]` and whose per-index distributions are
valid (each discretized Normal CDF is monotone and bounded by the free
mass), `push_gaussian_symbols` pushes the symbols in index order against the
LeakyQuantizer over `[1 - 2 ^ 15, 2 ^ 15]`, and a subsequent
`pop_gaussian_symbols` with the same parameters on the same coder returns
`Ok` of a vector element-wise equal to the original symbols, restoring the
coder. -/
theorem C8_gaussian_batch (symbols : List ℤ) (gs : List (ℤ → Nat))
    (hlen : symbols.length = gs.length)
    (hg : ∀ g ∈ gs, CdfOK QMIN QMAX g)
    (hs : ∀ s ∈ symbols, QMIN ≤ s ∧ s ≤ QMAX)
    (X : AnsCoder) (hXlo : 2 ^ 32 ≤ X.state) (hXhi : X.state < 2 ^ 64) :
    (X.push_gaussian_symbols symbols gs).pop_gaussian_symbols gs =
      Except.ok (symbols, X) :=
  gaussian_roundtrip symbols gs hlen hg hs X hXlo hXhi

/-- Witness for C8 at the singleton batch `symbols = [0]` with the constant
discretized CDF. -/
theorem C8_gaussian_batch_witness :
    ([(0 : ℤ)].length = [fun _ : ℤ => (0 : Nat)].length ∧
     (∀ g ∈ [fun _ : ℤ => (0 : Nat)], CdfOK QMIN QMAX g) ∧
     (∀ s ∈ [(0 : ℤ)], QMIN ≤ s ∧ s ≤ QMAX) ∧
     2 ^ 32 ≤ AnsCoder.new.state ∧ AnsCoder.new.state < 2 ^ 64) ∧
    (AnsCoder.new.push_gaussian_symbols [(0 : ℤ)]
        [fun _ : ℤ => (0 : Nat)]).pop_gaussian_symbols
      [fun _ : ℤ => (0 : Nat)] = Except.ok ([(0 : ℤ)], AnsCoder.new) := by
  have hg : ∀ g ∈ [fun _ : ℤ => (0 : Nat)], CdfOK QMIN QMAX g := by
    intro g hgm
    rw [List.mem_singleton.mp hgm]
    exact ⟨fun a b _ => Nat.le_refl 0, fun z => Nat.zero_le _⟩
  have hs : ∀ s ∈ [(0 : ℤ)], QMIN ≤ s ∧ s ≤ QMAX := by
    intro s hsm
    rw [List.mem_singleton.mp hsm]
    exact ⟨by decide, by decide⟩
  exact ⟨⟨rfl, hg, hs, by decide, by decide⟩,
    C8_gaussian_batch [(0 : ℤ)] [fun _ : ℤ => (0 : Nat)] rfl hg hs
      AnsCoder.new (by decide) (by decide)⟩

/-- C9, confirmed (spec-modelled).  When the checked push is called with a
symbol outside the quantizer's support, the `UnsupportedSymbol` error is the
immediate result surfaced to the caller (no retry, no state change is
reported). -/
theorem C9_unsupported_symbol (X : AnsCoder) (mn mx : ℤ) (g : ℤ → Nat)
    (s : ℤ) (hout : ¬ (mn ≤ s ∧ s ≤ mx)) :
    X.push_symbol_checked s (leakyChecked mn mx g) =
      Except.error CoderError.UnsupportedSymbol := by
  rw [AnsCoder.push_symbol_checked, leakyChecked, if_neg hout]

/-- Witness for C9: pushing symbol `200` against a quantizer over
`[-127, 127]` (the spec's S6 scenario). -/
theorem C9_unsupported_symbol_witness :
    ¬ ((-127 : ℤ) ≤ 200 ∧ (200 : ℤ) ≤ 127) ∧
    AnsCoder.new.push_symbol_checked 200
        (leakyChecked (-127) 127 (fun _ => 0)) =
      Except.error CoderError.UnsupportedSymbol :=
  ⟨by decide,
   C9_unsupported_symbol AnsCoder.new (-127) 127 (fun _ => 0) 200 (by decide)⟩

/-- C10, confirmed.  `pop_gaussian_symbols` with empty parameter lists
returns `Ok` of the empty vector and leaves the coder (register and buffer)
unchanged; `pop_iid_categorical_symbols` with `amt = 0` likewise returns
`Ok []` with the coder unchanged, for every possible `Categorical`
construction function — i.e. without depending on the distribution being
constructed at all. -/
theorem C10_empty_batches (X : AnsCoder) :
    X.pop_gaussian_symbols [] = Except.ok ([], X) ∧
    ∀ (W : Type) (minS maxS minP : ℤ) (probabilities : List W)
      (fcp : ℤ → ℤ → ℤ → List W → DiscreteDistribution ℤ),
      X.pop_iid_categorical_symbols 0 minS maxS minP probabilities fcp =
        Except.ok ([], X) :=
  ⟨rfl, fun _ _ _ _ _ _ => rfl⟩

end Claims
